import Mathlib

/-!
Shallow embedding of the candidate-detection, preference-scoring and
replacement-application core of `src/app.py` (a FastAPI service that flags
foreign-origin words in Turkish prose and proposes native replacements).

Strings are modelled as `List Char` (`Str`).  Python string behaviour is
modelled explicitly: `lower`, `upper`, `isupper`, `strip`, `split`, `find`,
slicing with clamping, and the regular expressions of the source
(`TR_SUFFIX_RE`, `TOKEN_RE`, `SENT_SPLIT`, `CODE_LIKE_RE`, `URL_RE`,
`EMAIL_RE`) as explicit scanning functions with the same leftmost /
greedy / backtracking semantics.  Note that Python's `str.lower` maps
'İ' (U+0130) to the two characters "i" + U+0307, so lowering can change
the length of a string; the model reproduces this.

The lexicon, whitelist and suggestion dictionary are loaded from data files
by the app; they are modelled as an explicit `Config` value, and the SQLite
preference table as an explicit list of rows with the semantics of the
`INSERT ... ON CONFLICT DO UPDATE` upsert the source issues.
-/

namespace TurkApp

abbrev Str := List Char

/-- Whitespace for Python's `\s`, `str.strip`, `str.split` (ASCII repertoire;
the texts handled here contain no exotic Unicode spaces). -/
def isSpacePy (c : Char) : Bool :=
  c = ' ' || c = '\t' || c = '\n' || c = '\r' || c = '\x0b' || c = '\x0c'

/-- Uppercase letters of the Latin + Turkish repertoire used by the app. -/
def isUpperCh (c : Char) : Bool :=
  ('A' ≤ c && c ≤ 'Z') || c = 'Ç' || c = 'Ğ' || c = 'İ' || c = 'Ö' || c = 'Ş' || c = 'Ü'

/-- Lowercase letters of the Latin + Turkish repertoire used by the app. -/
def isLowerCh (c : Char) : Bool :=
  ('a' ≤ c && c ≤ 'z') || c = 'ç' || c = 'ğ' || c = 'ı' || c = 'ö' || c = 'ş' || c = 'ü'

def isCasedCh (c : Char) : Bool := isUpperCh c || isLowerCh c

/-- Python `str.lower` per character.  'İ' (U+0130) lowers to "i" followed by
combining dot above (U+0307): Python lowering can lengthen a string. -/
def charLower (c : Char) : Str :=
  if 'A' ≤ c && c ≤ 'Z' then [Char.ofNat (c.toNat + 32)]
  else if c = 'Ç' then ['ç']
  else if c = 'Ğ' then ['ğ']
  else if c = 'İ' then ['i', Char.ofNat 775]
  else if c = 'Ö' then ['ö']
  else if c = 'Ş' then ['ş']
  else if c = 'Ü' then ['ü']
  else [c]

def strLower (s : Str) : Str := s.flatMap charLower

/-- Python `str.upper` per character over the same repertoire
('ı' and 'i' both upper to 'I', as in non-locale-aware Python). -/
def charUpper (c : Char) : Char :=
  if 'a' ≤ c && c ≤ 'z' then Char.ofNat (c.toNat - 32)
  else if c = 'ç' then 'Ç'
  else if c = 'ğ' then 'Ğ'
  else if c = 'ı' then 'I'
  else if c = 'ö' then 'Ö'
  else if c = 'ş' then 'Ş'
  else if c = 'ü' then 'Ü'
  else c

def strUpper (s : Str) : Str := s.map charUpper

/-- Python `str.isupper`: at least one cased character and no lowercase one. -/
def isupperPy (s : Str) : Bool := s.any isCasedCh && s.all (fun c => !isLowerCh c)

/-- Model of `normalize_token` (src/app.py:35-36). -/
def normalize_token (tok : Str) : Str := strLower tok

/-- Python `suggestion[:1].upper() + suggestion[1:]` (src/app.py:44). -/
def capFirstPy : Str → Str
  | [] => []
  | c :: cs => charUpper c :: cs

/-- Model of `preserve_casing` (src/app.py:38-45). -/
def preserve_casing (original suggestion : Str) : Str :=
  if isupperPy original then strUpper suggestion
  else if isupperPy (original.take 1) then capFirstPy suggestion
  else suggestion

/-- The casing rule exactly as claim C7 words it, for comparison with the
source behaviour: the whole-suggestion uppercase branch additionally
requires the original to have length at least 2. -/
def preserve_casing_claimed (original suggestion : Str) : Str :=
  if isupperPy original && decide (2 ≤ original.length) then strUpper suggestion
  else if isupperPy (original.take 1) then capFirstPy suggestion
  else suggestion

/-- Model of `is_all_caps` (src/app.py:47-48). -/
def is_all_caps (token : Str) : Bool := isupperPy token && decide (2 ≤ token.length)

/-- Model of `looks_like_proper_noun` (src/app.py:50-54). -/
def looks_like_proper_noun (original_token : Str) (token_index_in_sentence : Nat) : Bool :=
  if token_index_in_sentence = 0 then false
  else isupperPy (original_token.take 1)

/-- Python slice `t[a:b]` for nonnegative indices (clamps past the end). -/
def slicePy (t : Str) (a b : Nat) : Str := (t.drop a).take (b - a)

/-- Python `str.strip` (both ends). -/
def stripPy (s : Str) : Str :=
  ((s.dropWhile isSpacePy).reverse.dropWhile isSpacePy).reverse

/-- Python `str.split()` with no argument: split on whitespace runs, no empty
pieces.  Fuel bounds the recursion; each step consumes at least one char. -/
def splitWsAux : Nat → Str → List Str
  | 0, _ => []
  | fuel+1, s =>
    let s1 := s.dropWhile isSpacePy
    match s1 with
    | [] => []
    | _ :: _ =>
      let w := s1.takeWhile (fun c => !isSpacePy c)
      w :: splitWsAux fuel (s1.drop w.length)

def splitWs (s : Str) : List Str := splitWsAux s.length s

/-- Scan for the leftmost occurrence of `needle` at an index at or after
`pos`; fuel `hay.length + 1` covers every start position. -/
def findFromAux (hay needle : Str) : Nat → Nat → Option Nat
  | 0, _ => none
  | fuel+1, pos =>
    if pos + needle.length ≤ hay.length then
      if needle.isPrefixOf (hay.drop pos) then some pos
      else findFromAux hay needle fuel (pos + 1)
    else none

/-- Python `text.find(sub, pos)` as an option: the leftmost index `i ≥ pos`
at which `sub` occurs, if any. -/
def findFrom (hay needle : Str) (pos : Nat) : Option Nat :=
  findFromAux hay needle (hay.length + 1) pos

/-- Occurrence positions of `re.finditer` for a literal needle: leftmost,
non-overlapping; an empty needle advances by one as in Python.  Fuel
`hay.length + 1` bounds the match count, since starts strictly increase
and never exceed `hay.length`. -/
def findAllAux (hay needle : Str) : Nat → Nat → List Nat
  | 0, _ => []
  | fuel+1, pos =>
    match findFrom hay needle pos with
    | some j => j :: findAllAux hay needle fuel (j + max needle.length 1)
    | none => []

def findAll (hay needle : Str) : List Nat := findAllAux hay needle (hay.length + 1) 0

/-- The suffix alternation of `TR_SUFFIX_RE` (src/app.py:60-79), in source
order. -/
def trMorphemes : List Str :=
  [ "lar".toList, "ler".toList,
    "ım".toList, "im".toList, "um".toList, "üm".toList, "m".toList,
    "ın".toList, "in".toList, "un".toList, "ün".toList, "n".toList,
    "ı".toList, "i".toList, "u".toList, "ü".toList,
    "a".toList, "e".toList,
    "da".toList, "de".toList, "ta".toList, "te".toList,
    "dan".toList, "den".toList, "tan".toList, "ten".toList,
    "ya".toList, "ye".toList,
    "ki".toList,
    "dır".toList, "dir".toList, "dur".toList, "dür".toList,
    "tır".toList, "tir".toList, "tur".toList, "tür".toList,
    "mış".toList, "miş".toList, "muş".toList, "müş".toList,
    "acak".toList, "ecek".toList,
    "yı".toList, "yi".toList, "yu".toList, "yü".toList,
    "yla".toList, "yle".toList ]

/-- Character class of the regex root group `[a-zçğıöşü]` with
`re.IGNORECASE`, so the uppercase counterparts also match. -/
def rootChar (c : Char) : Bool :=
  ('a' ≤ c && c ≤ 'z') || c = 'ç' || c = 'ğ' || c = 'ı' || c = 'ö' || c = 'ş' || c = 'ü'
  || ('A' ≤ c && c ≤ 'Z') || c = 'Ç' || c = 'Ğ' || c = 'Ö' || c = 'Ş' || c = 'Ü' || c = 'İ'

/-- Python's `$` anchor: end of string, or just before one final newline. -/
def dollarOk (t : Str) : Bool := t = [] || t = ['\n']

/-- Whether the suffix star `(?:lar|ler|...)*` can consume `t` up to `$`
(backtracking explores every decomposition, so success is existential).
Fuel `t.length + 1` suffices: every listed morpheme is nonempty. -/
def suffixRun : Nat → Str → Bool
  | 0, t => dollarOk t
  | fuel+1, t =>
    dollarOk t ||
      trMorphemes.any (fun m => m.isPrefixOf t && suffixRun fuel (t.drop m.length))

/-- Drop the single trailing newline that the `$` anchor may leave
unconsumed, as the captured suffix group excludes it. -/
def dropDollarNL (t : Str) : Str := if t.getLast? = some '\n' then t.dropLast else t

/-- Model of `split_root_suffix` and `TR_SUFFIX_RE.match` (src/app.py:60-85).
The root group `[a-zçğıöşü]+` is greedy, so matching tries the longest
all-root-character prefix first and backtracks downward until the suffix
star can consume the remainder; on failure the function returns the input
with an empty suffix, mirroring lines 82-85. -/
def split_root_suffix (norm : Str) : Str × Str :=
  let p := (norm.takeWhile rootChar).length
  match (List.range' 1 p).reverse.find?
      (fun k => suffixRun (norm.length + 1) (norm.drop k)) with
  | some k => (norm.take k, dropDollarNL (norm.drop k))
  | none => (norm, [])

/-- Letter class of `TOKEN_RE` (src/app.py:156). -/
def isTokenLetter (c : Char) : Bool :=
  ('A' ≤ c && c ≤ 'Z') || ('a' ≤ c && c ≤ 'z') ||
  c = 'Ç' || c = 'Ğ' || c = 'İ' || c = 'Ö' || c = 'Ş' || c = 'Ü' ||
  c = 'ç' || c = 'ğ' || c = 'ı' || c = 'ö' || c = 'ş' || c = 'ü'

/-- Joining characters of `TOKEN_RE`: apostrophe, right single quote, hyphen. -/
def isTokenSep (c : Char) : Bool := c = '\'' || c = '’' || c = '-'

/-- Model of `TOKEN_RE.finditer` over a sentence: maximal letter runs with at
most one embedded separator-joined letter run, with start positions.  Fuel
`s.length` suffices since each step consumes at least one character. -/
def tokensAux : Nat → Str → List (Nat × Str)
  | 0, _ => []
  | _+1, [] => []
  | fuel+1, c :: cs =>
    if isTokenLetter c then
      let r1 := (c :: cs).takeWhile isTokenLetter
      let rest := (c :: cs).drop r1.length
      match rest with
      | sep :: d :: _ =>
        if isTokenSep sep && isTokenLetter d then
          let r2 := (rest.drop 1).takeWhile isTokenLetter
          let tok := r1 ++ sep :: r2
          (0, tok) ::
            (tokensAux fuel (rest.drop (1 + r2.length))).map
              (fun pr => (pr.1 + tok.length, pr.2))
        else
          (0, r1) :: (tokensAux fuel rest).map (fun pr => (pr.1 + r1.length, pr.2))
      | _ =>
        (0, r1) :: (tokensAux fuel rest).map (fun pr => (pr.1 + r1.length, pr.2))
    else
      (tokensAux fuel cs).map (fun pr => (pr.1 + 1, pr.2))

def tokensOf (s : Str) : List (Nat × Str) := tokensAux s.length s

def sentPunct (c : Char) : Bool := c = '.' || c = '!' || c = '?'

/-- First match of the sentence separator `(?<=[.!?])\s+` in the text whose
char after `prev` starts the scan: returns (start, end) of the greedy
whitespace run. -/
def findSplitAux : Char → Str → Nat → Option (Nat × Nat)
  | _, [], _ => none
  | prev, c :: cs, pos =>
    if sentPunct prev && isSpacePy c then
      some (pos, pos + 1 + (cs.takeWhile isSpacePy).length)
    else findSplitAux c cs (pos + 1)

def findSplit : Str → Option (Nat × Nat)
  | [] => none
  | c :: cs => findSplitAux c cs 1

/-- Model of `SENT_SPLIT.split` (src/app.py:153): split on whitespace runs
that follow `.`, `!` or `?`.  Fuel bounds the recursion; each separator
consumes at least two characters. -/
def sentSplitAux : Nat → Str → List Str
  | 0, u => [u]
  | fuel+1, u =>
    match findSplit u with
    | some st => u.take st.1 :: sentSplitAux fuel (u.drop st.2)
    | none => [u]

def sentSplit (u : Str) : List Str := sentSplitAux u.length u

/-- The fence delimiter character (U+0060) of `CODE_LIKE_RE`. -/
def fenceChar : Char := Char.ofNat 96

def fence3 : Str := [fenceChar, fenceChar, fenceChar]

/-- Matches of `CODE_LIKE_RE` (a lazy fenced block): each span runs from a
fence to the nearest closing fence, continuing after it. -/
def codeSpansAux (text : Str) : Nat → Nat → List (Nat × Nat)
  | 0, _ => []
  | fuel+1, pos =>
    match findFrom text fence3 pos with
    | none => []
    | some a =>
      match findFrom text fence3 (a + 3) with
      | none => []
      | some b => (a, b + 3) :: codeSpansAux text fuel (b + 3)

def codeSpans (text : Str) : List (Nat × Nat) := codeSpansAux text (text.length + 1) 0

/-- Attempt of `URL_RE` (`https?://\S+`) at a fixed position: the optional `s`
is greedy, then a maximal nonempty non-space run. -/
def urlMatchAt (text : Str) (pos : Nat) : Option Nat :=
  let rest := text.drop pos
  let tryScheme : Str → Option Nat := fun scheme =>
    if scheme.isPrefixOf rest then
      let tail := (rest.drop scheme.length).takeWhile (fun c => !isSpacePy c)
      if tail.length = 0 then none else some (pos + scheme.length + tail.length)
    else none
  match tryScheme "https://".toList with
  | some e => some e
  | none => tryScheme "http://".toList

/-- Generic finditer driver: try a match at each position, continuing after a
match or advancing one character after a failed attempt. -/
def scanSpansAux (matchAt : Nat → Option Nat) : Nat → Nat → List (Nat × Nat)
  | 0, _ => []
  | fuel+1, pos =>
    match matchAt pos with
    | some e => (pos, e) :: scanSpansAux matchAt fuel e
    | none => scanSpansAux matchAt fuel (pos + 1)

def urlSpans (text : Str) : List (Nat × Nat) :=
  scanSpansAux (urlMatchAt text) (text.length + 2) 0

/-- Word characters for Python's `\b` over the repertoire in use. -/
def isWordChar (c : Char) : Bool :=
  ('A' ≤ c && c ≤ 'Z') || ('a' ≤ c && c ≤ 'z') || ('0' ≤ c && c ≤ '9') || c = '_' ||
  c = 'Ç' || c = 'Ğ' || c = 'İ' || c = 'Ö' || c = 'Ş' || c = 'Ü' ||
  c = 'ç' || c = 'ğ' || c = 'ı' || c = 'ö' || c = 'ş' || c = 'ü'

def wordAt (text : Str) (i : Nat) : Bool :=
  match text[i]? with
  | some c => isWordChar c
  | none => false

/-- Python `\b` at index `pos`: word-ness changes between the previous and the
current position (out of range counts as non-word). -/
def wordBoundary (text : Str) (pos : Nat) : Bool :=
  wordAt text pos != (if pos = 0 then false else wordAt text (pos - 1))

/-- Backtracking of the final `\S+\b` of `EMAIL_RE` inside the non-space run
`t`: the largest `k ≥ 1` such that `\b` holds after `t.take k`. -/
def tailFit (t : Str) : Option Nat :=
  (List.range' 1 t.length).reverse.find? (fun k =>
    (match t[k-1]? with | some c => isWordChar c | none => false)
      != (match t[k]? with | some c => isWordChar c | none => false))

/-- Backtracking of `\S+\.\S+\b` of `EMAIL_RE` inside the non-space run `t`:
the dot position is tried from the right (the second `\S+` is greedy);
returns the consumed length. -/
def emailTail (t : Str) : Option Nat :=
  (List.range' 1 t.length).reverse.findSome? (fun j =>
    if t[j]? = some '.' then
      match tailFit (t.drop (j + 1)) with
      | some k => some (j + 1 + k)
      | none => none
    else none)

/-- Attempt of `EMAIL_RE` (`\b\S+@\S+\.\S+\b`) at a fixed position: the run of
non-space characters is carved by the rightmost workable `@`, then the
rightmost workable `.`. -/
def emailMatchAt (text : Str) (pos : Nat) : Option Nat :=
  if wordBoundary text pos then
    let run := (text.drop pos).takeWhile (fun c => !isSpacePy c)
    (List.range' 1 run.length).reverse.findSome? (fun i =>
      if run[i]? = some '@' then
        match emailTail (run.drop (i + 1)) with
        | some m => some (pos + i + 1 + m)
        | none => none
      else none)
  else none

def emailSpans (text : Str) : List (Nat × Nat) :=
  scanSpansAux (emailMatchAt text) (text.length + 2) 0

/-- Model of `protect_spans` (src/app.py:169-178): fenced code, URLs, emails,
sorted ascending as Python sorts the tuple list. -/
def protect_spans (text : Str) : List (Nat × Nat) :=
  (codeSpans text ++ urlSpans text ++ emailSpans text).insertionSort
    (fun a b => a.1 < b.1 ∨ (a.1 = b.1 ∧ a.2 ≤ b.2))

/-- Model of `in_protected` (src/app.py:180-184): full containment. -/
def in_protected (a b : Nat) (prot : List (Nat × Nat)) : Bool :=
  prot.any (fun xy => xy.1 ≤ a && b ≤ xy.2)

/-- Model of `COMMON_LOANWORDS` (src/app.py:143-145). -/
def COMMON_LOANWORDS : List Str :=
  [ "proje".toList, "rapor".toList, "analiz".toList, "model".toList,
    "metod".toList, "metodoloji".toList, "test".toList, "grafik".toList,
    "tablo".toList, "form".toList, "format".toList, "sistem".toList ]

/-- The external data the app loads once at startup (src/app.py:132-134):
the foreign-term lexicon (a Python set, modelled as a deduplicated list),
the whitelist, and the suggestion dictionary in authored order. -/
structure Config where
  foreign_terms : List Str
  whitelist : List Str
  suggestions : List (Str × List Str)

/-- Model of `PHRASES` (src/app.py:137): the multi-word lexicon entries,
stable-sorted by length descending. -/
def phrasesOf (cfg : Config) : List Str :=
  (cfg.foreign_terms.dedup.filter (fun t => t.contains ' ')).insertionSort
    (fun a b => b.length ≤ a.length)

def isAsciiStr (s : Str) : Bool := s.all (fun c => c.toNat < 128)

def suggKeys (cfg : Config) : List Str := cfg.suggestions.map Prod.fst

/-- Model of `level_allows` (src/app.py:186-194): `strict` allows everything,
`balanced` bars the common-loanword set, and every other value falls
through to the light rule (dictionary key, or ASCII of length at least 4). -/
def level_allows (cfg : Config) (term : Str) (level : String) : Bool :=
  if level = "strict" then true
  else if level = "balanced" then !(COMMON_LOANWORDS.contains term)
  else (suggKeys cfg).contains term || (isAsciiStr term && decide (4 ≤ term.length))

/-- Model of the `Candidate` dataclass (src/app.py:158-167); `end` is a Lean
keyword, hence the field name `end_`. -/
structure Candidate where
  id : String
  original : Str
  foreign_norm : Str
  start : Nat
  end_ : Nat
  context : Str
  root : Str
  suffix : Str
deriving DecidableEq

/-- Model of `get_sentence_context` (src/app.py:291-300): walk the sentence
split of the raw text, advancing by piece length plus one. -/
def sentCtxAux (idx : Nat) : Nat → List Str → Option Str
  | _, [] => none
  | pos, p :: ps =>
    if pos ≤ idx && idx ≤ pos + p.length then some (stripPy p)
    else sentCtxAux idx (pos + p.length + 1) ps

def get_sentence_context (text : Str) (idx : Nat) : Str :=
  match sentCtxAux idx 0 (sentSplit text) with
  | some s => s
  | none => stripPy text

def mkPhraseCand (text : Str) (ph : Str) (a : Nat) : Candidate :=
  { id := "ph:" ++ toString a ++ ":" ++ toString (a + ph.length)
    original := slicePy text a (a + ph.length)
    foreign_norm := ph
    start := a
    end_ := a + ph.length
    context := get_sentence_context text a
    root := ph
    suffix := [] }

/-- Phrase pass of `detect_candidates` (src/app.py:200-223): literal search
over the lowercased text; a hit is dropped when protected or when one of the
phrase's words is a (case-sensitive) whitelist entry. -/
def phraseCandidates (cfg : Config) (text : Str) (level : String) : List Candidate :=
  let prot := protect_spans text
  let lower_text := strLower text
  (phrasesOf cfg).flatMap (fun ph =>
    if level_allows cfg ph level then
      (findAll lower_text ph).filterMap (fun a =>
        if in_protected a (a + ph.length) prot then none
        else if (splitWs ph).any (fun w => cfg.whitelist.contains w) then none
        else some (mkPhraseCand text ph a))
    else [])

/-- Sentence offsets (src/app.py:227-234): forward `find` from the running
position, falling back to the running position itself on failure. -/
def computeOffsets (text : Str) : Nat → List Str → List Nat
  | _, [] => []
  | pos, s :: ss =>
    let st := (findFrom text s pos).getD pos
    st :: computeOffsets text (st + s.length) ss

/-- The sentence list of the word pass (src/app.py:226): empty for an
all-whitespace text (Python truthiness of the stripped text). -/
def sentencesOf (text : Str) : List Str :=
  if stripPy text = [] then [] else sentSplit (stripPy text)

/-- Sentences paired with their recovered start offsets. -/
def sentencePairs (text : Str) : List (Str × Nat) :=
  (sentencesOf text).zip (computeOffsets text 0 (sentencesOf text))

/-- Word pass of `detect_candidates` (src/app.py:226-278). -/
def wordCandidates (cfg : Config) (text : Str) (level : String) : List Candidate :=
  let prot := protect_spans text
  (sentencePairs text).flatMap (fun so =>
    (tokensOf so.1).enum.flatMap (fun tim =>
      let original := tim.2.2
      let a := so.2 + tim.2.1
      let b := a + original.length
      if in_protected a b prot then []
      else if cfg.whitelist.contains original
          || (cfg.whitelist.map normalize_token).contains (normalize_token original) then []
      else if is_all_caps original then []
      else if looks_like_proper_noun original tim.1 then []
      else
        let norm := normalize_token original
        let rs := split_root_suffix norm
        match (if cfg.foreign_terms.contains norm then some norm
               else if cfg.foreign_terms.contains rs.1 then some rs.1
               else none) with
        | none => []
        | some hit =>
          if level_allows cfg hit level then
            [{ id := "w:" ++ toString a ++ ":" ++ toString b
               original := original
               foreign_norm := hit
               start := a
               end_ := b
               context := so.1
               root := rs.1
               suffix := rs.2 }]
          else []))

/-- Sort key order of src/app.py:281: `(start ascending, span length
descending)`; all generated candidates satisfy `start < end_`, so Nat
subtraction agrees with the Python key `-(end - start)`. -/
def candLe (c d : Candidate) : Bool :=
  c.start < d.start || (c.start = d.start && d.end_ - d.start ≤ c.end_ - c.start)

/-- Overlap scan of src/app.py:282-289: accept a candidate only when its
start is not below the end of the last accepted one. -/
def resolveOverlaps : Int → List Candidate → List Candidate
  | _, [] => []
  | lastEnd, c :: cs =>
    if (c.start : Int) < lastEnd then resolveOverlaps lastEnd cs
    else c :: resolveOverlaps (c.end_ : Int) cs

/-- Model of `detect_candidates` (src/app.py:196-289). -/
def detect_candidates (cfg : Config) (text : Str) (level : String) : List Candidate :=
  resolveOverlaps (-1)
    ((phraseCandidates cfg text level ++ wordCandidates cfg text level).insertionSort
      (fun c d => candLe c d = true))

/-- Row of the `prefs` table (src/app.py:93-102). -/
structure Row where
  user_id : String
  foreign_term : Str
  suggestion : Str
  context_tag : String
  score : Int
deriving DecidableEq

abbrev DB := List Row

def keyEq (r : Row) (u : String) (t s : Str) (c : String) : Bool :=
  r.user_id == u && r.foreign_term == t && r.suggestion == s && r.context_tag == c

/-- Model of `db_add_score` (src/app.py:106-116): the single atomic upsert
`INSERT ... ON CONFLICT DO UPDATE SET score = score + excluded.score`. -/
def db_add_score (db : DB) (u : String) (t s : Str) (c : String) (delta : Int) : DB :=
  if db.any (fun r => keyEq r u t s c) then
    db.map (fun r => if keyEq r u t s c then { r with score := r.score + delta } else r)
  else db ++ [⟨u, t, s, c, delta⟩]

/-- Model of `db_get_scores` (src/app.py:118-127): the rows for
(user, term, context) as a suggestion-to-score dict built in row order. -/
def db_get_scores (db : DB) (u : String) (t : Str) (c : String) : List (Str × Int) :=
  db.filterMap (fun r =>
    if r.user_id == u && r.foreign_term == t && r.context_tag == c then
      some (r.suggestion, r.score)
    else none)

/-- Python dict lookup over an insertion-ordered pair list: the last binding
for a key wins. -/
def dictGet (l : List (Str × Int)) (s : Str) : Option Int := l.reverse.lookup s

/-- Python `scores.get(s, 0)`. -/
def getScore (l : List (Str × Int)) (s : Str) : Int := (dictGet l s).getD 0

/-- Model of `rank_suggestions` (src/app.py:302-306): decorate the base list
with learned scores, then stable sort descending by score (Python's
`list.sort(key=..., reverse=True)` is stable). -/
def rank_suggestions (db : DB) (user_id : String) (foreign_norm : Str)
    (base : List Str) (context_tag : String) : List (Str × Int) :=
  let scores := db_get_scores db user_id foreign_norm context_tag
  (base.map (fun s => (s, getScore scores s))).insertionSort
    (fun x y => y.2 ≤ x.2)

structure Replacement where
  start : Nat
  end_ : Nat
  new : Str

/-- Model of `apply_replacements` (src/app.py:308-313): splice replacements
from the highest start offset down. -/
def apply_replacements (text : Str) (reps : List Replacement) : Str :=
  (reps.insertionSort (fun a b => b.start ≤ a.start)).foldl
    (fun out r => out.take r.start ++ r.new ++ out.drop r.end_) text

/-- One result item of `/analyze` (src/app.py:362-370). -/
structure Item where
  id : String
  original : Str
  foreign_norm : Str
  start : Nat
  end_ : Nat
  context : Str
  suggestions : List (Str × Int)

/-- Python dict get over the suggestion dictionary (`SUGGESTIONS.get`). -/
def dictLookup (l : List (Str × List Str)) (k : Str) : Option (List Str) :=
  l.reverse.lookup k

/-- Model of the `/analyze` endpoint body (src/app.py:352-377), item list. -/
def analyze (cfg : Config) (db : DB) (user_id : String) (text : Str)
    (context_tag level : String) : List Item :=
  (detect_candidates cfg text level).map (fun c =>
    { id := c.id
      original := c.original
      foreign_norm := c.foreign_norm
      start := c.start
      end_ := c.end_
      context := c.context
      suggestions :=
        rank_suggestions db user_id c.foreign_norm
          ((dictLookup cfg.suggestions c.foreign_norm).getD []) context_tag })

/-- Model of the `Choice` request schema (src/app.py:324-327). -/
structure Choice where
  candidate_id : String
  chosen : Option Str
  rejected : List Str

def itemsDict (items : List Item) : List (String × Item) :=
  items.map (fun it => (it.id, it))

def itemLookup (l : List (String × Item)) (k : String) : Option Item :=
  l.reverse.lookup k

/-- Model of the `/apply` endpoint body (src/app.py:379-411): re-analyze,
record feedback (-1 per nonempty rejected entry, +2 for a nonempty chosen
entry), collect replacements with preserved casing, splice.  Returns the new
text and the updated store. -/
def apply (cfg : Config) (db : DB) (user_id : String) (text : Str)
    (context_tag level : String) (choices : List Choice) : Str × DB :=
  let items := itemsDict (analyze cfg db user_id text context_tag level)
  let rd := choices.foldl (fun acc ch =>
    match itemLookup items ch.candidate_id with
    | none => acc
    | some it =>
      let db1 := ch.rejected.foldl (fun d r =>
        if r = [] then d
        else db_add_score d user_id it.foreign_norm r context_tag (-1)) acc.2
      match ch.chosen with
      | some chosenS =>
        if chosenS = [] then (acc.1, db1)
        else
          (acc.1 ++ [⟨it.start, it.end_, preserve_casing it.original chosenS⟩],
            db_add_score db1 user_id it.foreign_norm chosenS context_tag 2)
      | none => (acc.1, db1)) (([] : List Replacement), db)
  (apply_replacements text rd.1, rd.2)

/-- Specification predicate: the pieces occur in `t`, in order, each at some
position at or after the running minimum, with at least one separating
character between consecutive pieces (the shape `SENT_SPLIT.split` yields). -/
def PiecesAt (t : Str) : Nat → List Str → Prop
  | _, [] => True
  | m, p :: ps =>
    ∃ q, m ≤ q ∧ q + p.length ≤ t.length ∧ (t.drop q).take p.length = p ∧
      PiecesAt t (q + p.length + 1) ps

/-- Lexicon/whitelist/dictionary instance of the worked end-to-end example
(claim C2): lexicon with "performans" and "optimize". -/
def cfgExample : Config :=
  ⟨["performans".toList, "optimize".toList], [], [("optimize".toList, ["eniyilemek".toList])]⟩

def textExample : Str := "Projenin performansını optimize ettik.".toList

/-- Lexicon with one phrase and a text whose 'İ' lengthens under lowering
(for claim C4). -/
def cfgDotted : Config := ⟨["ab cd".toList], [], []⟩

def textDotted : Str := "İ ab cd".toList

/-- Whitelist holding a multi-word phrase that is also a lexicon phrase
(for claim C5). -/
def cfgPhraseWl : Config := ⟨["veri tabanı".toList], ["veri tabanı".toList], []⟩

/-- Lexicon with the common loanword "model" (for claim C6). -/
def cfgModel : Config := ⟨["model".toList], [], []⟩

/-- Lexicon and whitelist for witnessing the amended whitelist claim: the
whitelist entry is unrelated to the detected token. -/
def cfgVeriWl : Config := ⟨["optimize".toList], ["veri".toList], []⟩

/-- The word candidate that detection produces for "optimize et" with the
lexicon of `cfgVeriWl`. -/
def candOptimize : Candidate :=
  ⟨"w:0:8", "optimize".toList, "optimize".toList, 0, 8,
    "optimize et".toList, "optimize".toList, []⟩

/-- The single candidate of the end-to-end example text. -/
def candOptimizeEx : Candidate :=
  ⟨"w:23:31", "optimize".toList, "optimize".toList, 23, 31,
    textExample, "optimize".toList, []⟩

theorem lookup_none_of_keys (s : Str) :
    ∀ l : List (Str × Int), (∀ p ∈ l, p.1 ≠ s) → l.lookup s = none := by
  intro l h
  induction l with
  | nil => rfl
  | cons p ps ih =>
    have hp : (s == p.1) = false := by
      refine beq_eq_false_iff_ne.mpr ?_
      exact fun e => h p (List.mem_cons_self ..) e.symm
    simp only [List.lookup, hp]
    exact ih fun q hq => h q (List.mem_cons_of_mem _ hq)

theorem lookup_isSome_of_key (s : Str) :
    ∀ l : List (Str × Int), (∃ p ∈ l, p.1 = s) → (l.lookup s).isSome = true := by
  intro l h
  induction l with
  | nil => simp at h
  | cons p ps ih =>
    by_cases hp : p.1 = s
    · have : (s == p.1) = true := beq_iff_eq.mpr hp.symm
      simp [List.lookup, this]
    · have hb : (s == p.1) = false := beq_eq_false_iff_ne.mpr fun e => hp e.symm
      simp only [List.lookup, hb]
      refine ih ?_
      obtain ⟨q, hq, hqs⟩ := h
      rcases List.mem_cons.mp hq with h1 | h1
      · exact absurd (h1 ▸ hqs) hp
      · exact ⟨q, h1, hqs⟩

theorem lookup_map_bump (s : Str) (δ : Int) :
    ∀ l : List (Str × Int),
      (l.map (fun p => if p.1 = s then (p.1, p.2 + δ) else p)).lookup s
        = (l.lookup s).map (fun v => v + δ) := by
  intro l
  induction l with
  | nil => rfl
  | cons p ps ih =>
    simp only [List.map_cons]
    by_cases hp : p.1 = s
    · rw [if_pos hp]
      have hb : (s == p.1) = true := beq_iff_eq.mpr hp.symm
      simp [List.lookup, hb]
    · rw [if_neg hp]
      have hb : (s == p.1) = false := beq_eq_false_iff_ne.mpr fun e => hp e.symm
      simp [List.lookup, hb, ih]

theorem get_scores_key_row (db : DB) (u : String) (t s : Str) (c : String) :
    ∀ p ∈ db_get_scores db u t c, p.1 = s → ∃ r ∈ db, keyEq r u t s c = true := by
  intro p hp hps
  obtain ⟨r, hr, hfil⟩ := List.mem_filterMap.mp hp
  refine ⟨r, hr, ?_⟩
  by_cases hcond : (r.user_id == u && r.foreign_term == t && r.context_tag == c) = true
  · rw [if_pos hcond] at hfil
    obtain ⟨h1, h2⟩ := Prod.mk.injEq .. ▸ (Option.some.injEq .. ▸ hfil)
    simp only [Bool.and_eq_true] at hcond
    simp only [keyEq, Bool.and_eq_true]
    exact ⟨⟨⟨hcond.1.1, hcond.1.2⟩, beq_iff_eq.mpr (h1.symm ▸ hps)⟩, hcond.2⟩
  · rw [if_neg hcond] at hfil; exact absurd hfil (by simp)

theorem get_scores_append (d1 d2 : DB) (u : String) (t : Str) (c : String) :
    db_get_scores (d1 ++ d2) u t c = db_get_scores d1 u t c ++ db_get_scores d2 u t c :=
  List.filterMap_append ..

theorem get_scores_map_bump (u : String) (t s : Str) (c : String) (δ : Int) :
    ∀ db : DB,
      db_get_scores (db.map (fun r =>
          if keyEq r u t s c then { r with score := r.score + δ } else r)) u t c
        = (db_get_scores db u t c).map (fun p => if p.1 = s then (p.1, p.2 + δ) else p) := by
  intro db
  induction db with
  | nil => rfl
  | cons r rs ih =>
    simp only [List.map_cons, db_get_scores, List.filterMap_cons]
    by_cases hk : keyEq r u t s c = true
    · have hfields := hk
      simp only [keyEq, Bool.and_eq_true, beq_iff_eq] at hfields
      obtain ⟨⟨⟨hu, ht⟩, hs⟩, hc⟩ := hfields
      simp only [if_pos hk]
      have hcond : (r.user_id == u && r.foreign_term == t && r.context_tag == c) = true := by
        simp [hu, ht, hc]
      simp only [hcond, if_pos, hs]
      simpa [db_get_scores] using ih
    · simp only [if_neg hk]
      by_cases hcond : (r.user_id == u && r.foreign_term == t && r.context_tag == c) = true
      · have hns : ¬ r.suggestion = s := by
          intro hs
          exact hk (by simp only [keyEq, Bool.and_eq_true] at hcond ⊢
                       exact ⟨⟨⟨hcond.1.1, hcond.1.2⟩, beq_iff_eq.mpr hs⟩, hcond.2⟩)
        simp only [hcond, if_pos, List.map_cons, if_neg hns]
        simpa [db_get_scores] using ih
      · simp only [if_neg hcond]
        simpa [db_get_scores] using ih

/-- Effect of one upsert on the score read back for its own key: the stored
value becomes the previous value (default 0) plus the delta. -/
theorem getScore_db_add (db : DB) (u : String) (t s : Str) (c : String) (δ : Int) :
    dictGet (db_get_scores (db_add_score db u t s c δ) u t c) s
      = some (getScore (db_get_scores db u t c) s + δ) := by
  unfold db_add_score
  by_cases hany : db.any (fun r => keyEq r u t s c) = true
  · simp only [if_pos hany]
    obtain ⟨r0, hr0, hk0⟩ := List.any_eq_true.mp hany
    have hsome : ((db_get_scores db u t c).reverse.lookup s).isSome = true := by
      refine lookup_isSome_of_key s _ ?_
      have hfields := hk0
      simp only [keyEq, Bool.and_eq_true, beq_iff_eq] at hfields
      obtain ⟨⟨⟨hu, ht⟩, hs⟩, hc⟩ := hfields
      have hmem : (r0.suggestion, r0.score) ∈ db_get_scores db u t c := by
        refine List.mem_filterMap.mpr ⟨r0, hr0, ?_⟩
        simp [hu, ht, hc]
      exact ⟨(r0.suggestion, r0.score), List.mem_reverse.mpr hmem, hs⟩
    obtain ⟨v, hv⟩ := Option.isSome_iff_exists.mp hsome
    rw [get_scores_map_bump]
    unfold dictGet getScore dictGet
    rw [← List.map_reverse, lookup_map_bump, hv]
    rfl
  · simp only [if_neg hany]
    have hnone : (db_get_scores db u t c).reverse.lookup s = none := by
      refine lookup_none_of_keys s _ ?_
      intro p hp hps
      obtain ⟨r, hr, hk⟩ := get_scores_key_row db u t s c p (List.mem_reverse.mp hp) hps
      exact absurd hk (List.any_eq_false.mp (Bool.eq_false_iff.mpr hany) r hr)
    rw [get_scores_append]
    unfold dictGet getScore dictGet
    rw [List.reverse_append, hnone]
    simp [db_get_scores, List.lookup]

/-- C8: the preference store accumulates additively per exact composite key:
from a state with no row for (u,t,s,c), adding +2 then -1 makes the score
read back as 1; and a key never scored yields no entry at all (callers
default to 0). -/
theorem C8_store_accumulates :
    (∀ (db : DB) (u : String) (t s : Str) (c : String),
      (∀ r ∈ db, keyEq r u t s c = false) →
      dictGet (db_get_scores
          (db_add_score (db_add_score db u t s c 2) u t s c (-1)) u t c) s = some 1) ∧
    (∀ (db : DB) (u : String) (t s : Str) (c : String),
      (∀ r ∈ db, keyEq r u t s c = false) →
      dictGet (db_get_scores db u t c) s = none) := by
  constructor
  · intro db u t s c hfree
    have hnone : dictGet (db_get_scores db u t c) s = none := by
      unfold dictGet
      refine lookup_none_of_keys s _ ?_
      intro p hp hps
      obtain ⟨r, hr, hk⟩ := get_scores_key_row db u t s c p (List.mem_reverse.mp hp) hps
      exact (Bool.eq_false_iff.mp (hfree r hr)) hk
    have h1 := getScore_db_add db u t s c 2
    have h2 := getScore_db_add (db_add_score db u t s c 2) u t s c (-1)
    rw [h2]
    unfold getScore
    rw [h1]
    unfold getScore
    rw [hnone]
    norm_num
  · intro db u t s c hfree
    unfold dictGet
    refine lookup_none_of_keys s _ ?_
    intro p hp hps
    obtain ⟨r, hr, hk⟩ := get_scores_key_row db u t s c p (List.mem_reverse.mp hp) hps
    exact (Bool.eq_false_iff.mp (hfree r hr)) hk

/-- C8 witness: the store facts at the empty store and a concrete key. -/
theorem C8_store_witness :
    (∀ r ∈ ([] : DB), keyEq r "u" "optimize".toList "eniyilemek".toList "akademik" = false) ∧
    dictGet (db_get_scores
        (db_add_score (db_add_score [] "u" "optimize".toList "eniyilemek".toList "akademik" 2)
          "u" "optimize".toList "eniyilemek".toList "akademik" (-1))
        "u" "optimize".toList "akademik") "eniyilemek".toList = some 1 ∧
    dictGet (db_get_scores [] "u" "optimize".toList "akademik") "eniyilemek".toList = none :=
  ⟨fun r hr => absurd hr (List.not_mem_nil r),
   C8_store_accumulates.1 [] "u" "optimize".toList "eniyilemek".toList "akademik"
     (fun r hr => absurd hr (List.not_mem_nil r)),
   C8_store_accumulates.2 [] "u" "optimize".toList "eniyilemek".toList "akademik"
     (fun r hr => absurd hr (List.not_mem_nil r))⟩

theorem pairwise_const_of_refl {α : Type} (P : α → α → Prop) (hP : ∀ a b, P a b) :
    ∀ l : List α, l.Pairwise P := by
  intro l
  induction l with
  | nil => exact List.Pairwise.nil
  | cons a as ih => exact List.Pairwise.cons (fun b _ => hP a b) ih

/-- C9: suggestion ranking is a stable descending sort by learned score over
the dictionary's base list: when every looked-up score equals the same value
(in particular 0 with no feedback), the ranked output is the base order with
that score attached. -/
theorem C9_rank_stable :
    ∀ (db : DB) (u : String) (fn : Str) (ctx : String) (base : List Str) (k : Int),
      (∀ s ∈ base, getScore (db_get_scores db u fn ctx) s = k) →
      rank_suggestions db u fn base ctx = base.map (fun s => (s, k)) := by
  intro db u fn ctx base k h
  simp only [rank_suggestions]
  have hmap : base.map (fun s => (s, getScore (db_get_scores db u fn ctx) s))
      = base.map (fun s => (s, k)) :=
    List.map_congr_left fun s hs => by rw [h s hs]
  rw [hmap]
  refine List.Sorted.insertionSort_eq ?_
  refine (List.pairwise_map).mpr ?_
  exact pairwise_const_of_refl _ (fun a b => le_refl k) base

/-- C9 witness: a two-element base list with the empty store (all scores 0)
ranks in base order. -/
theorem C9_rank_witness :
    (∀ s ∈ ["birim".toList, "ölçü".toList],
      getScore (db_get_scores [] "u" "metrik".toList "akademik") s = 0) ∧
    rank_suggestions [] "u" "metrik".toList ["birim".toList, "ölçü".toList] "akademik"
      = [("birim".toList, 0), ("ölçü".toList, 0)] :=
  ⟨by decide,
   C9_rank_stable [] "u" "metrik".toList "akademik" ["birim".toList, "ölçü".toList] 0
     (by decide)⟩

theorem mem_of_mem_enum {α : Type} {l : List α} {x : Nat × α} (h : x ∈ l.enum) : x.2 ∈ l := by
  obtain ⟨h1, h2⟩ := List.mem_enum (show (x.1, x.2) ∈ l.enum from Prod.mk.eta ▸ h)
  exact h2 ▸ List.getElem_mem h1

theorem spec_shift (s : Str) (off : Nat) (hoff : off ≤ s.length) (q : Nat × Str)
    (h1 : q.2 ≠ []) (h2 : q.1 + q.2.length ≤ (s.drop off).length)
    (h3 : ((s.drop off).drop q.1).take q.2.length = q.2) :
    q.2 ≠ [] ∧ (q.1 + off) + q.2.length ≤ s.length ∧
      (s.drop (q.1 + off)).take q.2.length = q.2 := by
  refine ⟨h1, ?_, ?_⟩
  · rw [List.length_drop] at h2
    omega
  · rw [List.drop_drop] at h3
    rw [Nat.add_comm q.1 off]
    exact h3

set_option maxHeartbeats 1600000 in
/-- Every token produced by the tokenizer is a nonempty in-bounds slice of
the scanned sentence, at its reported position. -/
theorem tokensAux_spec :
    ∀ (fuel : Nat) (s : Str), ∀ p ∈ tokensAux fuel s,
      p.2 ≠ [] ∧ p.1 + p.2.length ≤ s.length ∧ (s.drop p.1).take p.2.length = p.2 := by
  intro fuel
  induction fuel with
  | zero => intro s p hp; exact absurd hp (by simp [tokensAux])
  | succ fuel ih =>
    intro s p hp
    cases s with
    | nil => exact absurd hp (by simp [tokensAux])
    | cons c cs =>
      by_cases hl : isTokenLetter c = true
      · simp only [tokensAux, if_pos hl] at hp
        set r1 := (c :: cs).takeWhile isTokenLetter with hr1def
        have hr1pre : r1 <+: (c :: cs) := List.takeWhile_prefix _
        have hr1take : r1 = (c :: cs).take r1.length := List.prefix_iff_eq_take.mp hr1pre
        have hr1len : r1.length ≤ (c :: cs).length := hr1pre.length_le
        have hr1ne : r1 ≠ [] := by
          rw [hr1def, List.takeWhile_cons_of_pos hl]
          simp
        set rest := (c :: cs).drop r1.length with hrestdef
        have hsplit : r1 ++ rest = c :: cs := by
          rw [hrestdef]
          conv_rhs => rw [← List.take_append_drop r1.length (c :: cs)]
          rw [← hr1take]
        clear_value r1 rest
        split at hp
        next =>
          rename_i sep d l
          simp only [List.drop_one, List.tail_cons] at hp
          by_cases hsep : (isTokenSep sep && isTokenLetter d) = true
          · rw [if_pos hsep] at hp
            have hr2pre : List.takeWhile isTokenLetter (d :: l) <+: (d :: l) :=
              List.takeWhile_prefix _
            obtain ⟨t2, ht2⟩ := hr2pre
            have htail : (sep :: List.takeWhile isTokenLetter (d :: l)) ++ t2
                = sep :: d :: l := by
              rw [List.cons_append, ht2]
            have htokpre : (r1 ++ sep :: List.takeWhile isTokenLetter (d :: l))
                <+: (c :: cs) := by
              refine ⟨t2, ?_⟩
              rw [List.append_assoc, htail]
              exact hsplit
            rcases List.mem_cons.mp hp with rfl | hp2
            · refine ⟨by simp, ?_, ?_⟩
              · simpa using htokpre.length_le
              · have := List.prefix_iff_eq_take.mp htokpre
                simpa using this.symm
            · obtain ⟨q, hq, rfl⟩ := List.mem_map.mp hp2
              have hlen2 : (r1 ++ sep :: List.takeWhile isTokenLetter (d :: l)).length
                  = r1.length + (1 + (List.takeWhile isTokenLetter (d :: l)).length) := by
                simp only [List.length_append, List.length_cons]
                omega
              have hdropeq : (sep :: d :: l).drop
                    (1 + (List.takeWhile isTokenLetter (d :: l)).length)
                  = (c :: cs).drop
                    ((r1 ++ sep :: List.takeWhile isTokenLetter (d :: l)).length) := by
                rw [hrestdef, List.drop_drop, hlen2]
              have hspec := ih _ q hq
              rw [hdropeq] at hspec
              exact spec_shift (c :: cs) _ htokpre.length_le q hspec.1 hspec.2.1 hspec.2.2
          · rw [if_neg hsep] at hp
            rcases List.mem_cons.mp hp with rfl | hp2
            · exact ⟨hr1ne, by simpa using hr1len, by simpa using hr1take.symm⟩
            · obtain ⟨q, hq, rfl⟩ := List.mem_map.mp hp2
              have hspec := ih _ q hq
              rw [hrestdef] at hspec
              exact spec_shift (c :: cs) _ hr1len q hspec.1 hspec.2.1 hspec.2.2
        next hnot =>
          rcases List.mem_cons.mp hp with rfl | hp2
          · exact ⟨hr1ne, by simpa using hr1len, by simpa using hr1take.symm⟩
          · obtain ⟨q, hq, rfl⟩ := List.mem_map.mp hp2
            have hspec := ih _ q hq
            rw [hrestdef] at hspec
            exact spec_shift (c :: cs) _ hr1len q hspec.1 hspec.2.1 hspec.2.2
      · simp only [tokensAux, if_neg hl] at hp
        obtain ⟨q, hq, rfl⟩ := List.mem_map.mp hp
        have hspec := ih cs q hq
        refine spec_shift (c :: cs) 1 (by simp) q hspec.1 ?_ ?_
        · simpa using hspec.2.1
        · simpa using hspec.2.2

theorem tokensOf_spec {s : Str} {p : Nat × Str} (hp : p ∈ tokensOf s) :
    p.2 ≠ [] ∧ p.1 + p.2.length ≤ s.length ∧ (s.drop p.1).take p.2.length = p.2 :=
  tokensAux_spec s.length s p hp

/-- Every phrase of the phrase list contains a space, hence is nonempty. -/
theorem phrasesOf_len {cfg : Config} {ph : Str} (h : ph ∈ phrasesOf cfg) :
    1 ≤ ph.length := by
  unfold phrasesOf at h
  have h2 := (List.perm_insertionSort _ _).mem_iff.mp h
  have h3 := List.mem_filter.mp h2
  have hsp : ' ' ∈ ph := List.elem_iff.mp h3.2
  have : ph ≠ [] := List.ne_nil_of_mem hsp
  exact List.length_pos.mpr this

/-- Structure of a phrase-pass candidate. -/
theorem phraseCandidates_mem {cfg : Config} {text : Str} {level : String} {c : Candidate}
    (h : c ∈ phraseCandidates cfg text level) :
    ∃ ph ∈ phrasesOf cfg, ∃ a ∈ findAll (strLower text) ph,
      c = mkPhraseCand text ph a ∧
      ((splitWs ph).any (fun w => cfg.whitelist.contains w)) = false := by
  simp only [phraseCandidates, List.mem_flatMap] at h
  obtain ⟨ph, hph, h⟩ := h
  split at h
  case isFalse => exact absurd h (List.not_mem_nil c)
  obtain ⟨a, ha, hfa⟩ := List.mem_filterMap.mp h
  split at hfa
  · exact absurd hfa (by simp)
  split at hfa
  next h2 => exact absurd hfa (by simp)
  next h2 =>
    exact ⟨ph, hph, a, ha, (Option.some.inj hfa).symm, Bool.eq_false_iff.mpr h2⟩

/-- Structure of a word-pass candidate. -/
theorem wordCandidates_mem {cfg : Config} {text : Str} {level : String} {c : Candidate}
    (h : c ∈ wordCandidates cfg text level) :
    ∃ so ∈ sentencePairs text, ∃ tim ∈ (tokensOf so.1).enum,
      c.original = tim.2.2 ∧ c.start = so.2 + tim.2.1 ∧
      c.end_ = so.2 + tim.2.1 + tim.2.2.length ∧
      (cfg.whitelist.contains tim.2.2
        || (cfg.whitelist.map normalize_token).contains (normalize_token tim.2.2)) = false := by
  simp only [wordCandidates, List.mem_flatMap] at h
  obtain ⟨so, hso, h⟩ := h
  obtain ⟨tim, htim, h⟩ := h
  refine ⟨so, hso, tim, htim, ?_⟩
  split at h
  · exact absurd h (List.not_mem_nil c)
  next hwlcond =>
  split at h
  · exact absurd h (List.not_mem_nil c)
  next hwl =>
  split at h
  · exact absurd h (List.not_mem_nil c)
  split at h
  · exact absurd h (List.not_mem_nil c)
  split at h
  · exact absurd h (List.not_mem_nil c)
  next hit hhit =>
  split at h
  · have := List.mem_singleton.mp h
    subst this
    exact ⟨rfl, rfl, rfl, Bool.eq_false_iff.mpr hwl⟩
  · exact absurd h (List.not_mem_nil c)

/-- The overlap scan yields pairwise-disjoint candidates in position order,
provided every input candidate has a positive-length span. -/
theorem resolveOverlaps_sound :
    ∀ (l : List Candidate) (lastEnd : Int),
      (∀ c ∈ l, c.start < c.end_) →
      List.Pairwise (fun a b => a.end_ ≤ b.start) (resolveOverlaps lastEnd l) ∧
      ∀ c ∈ resolveOverlaps lastEnd l, lastEnd ≤ (c.start : Int) := by
  intro l
  induction l with
  | nil =>
    intro lastEnd _
    exact ⟨List.Pairwise.nil, by intro c hc; exact absurd hc (List.not_mem_nil c)⟩
  | cons c cs ih =>
    intro lastEnd h
    simp only [resolveOverlaps]
    by_cases hlt : (c.start : Int) < lastEnd
    · rw [if_pos hlt]
      exact ih lastEnd fun d hd => h d (List.mem_cons_of_mem _ hd)
    · rw [if_neg hlt]
      have hcs := ih (c.end_ : Int) fun d hd => h d (List.mem_cons_of_mem _ hd)
      constructor
      · refine List.Pairwise.cons ?_ hcs.1
        intro d hd
        have := hcs.2 d hd
        exact_mod_cast this
      · intro d hd
        rcases List.mem_cons.mp hd with rfl | hd'
        · omega
        · have h1 := hcs.2 d hd'
          have h2 : d.start < d.end_ ∨ True := Or.inr trivial
          have h3 : (c.start : Int) < (c.end_ : Int) := by
            exact_mod_cast h c (List.mem_cons_self ..)
          omega

theorem resolveOverlaps_subset :
    ∀ (l : List Candidate) (lastEnd : Int) (c : Candidate),
      c ∈ resolveOverlaps lastEnd l → c ∈ l := by
  intro l
  induction l with
  | nil => intro lastEnd c hc; exact absurd hc (by simp [resolveOverlaps])
  | cons d ds ih =>
    intro lastEnd c hc
    simp only [resolveOverlaps] at hc
    by_cases hlt : (d.start : Int) < lastEnd
    · rw [if_pos hlt] at hc
      exact List.mem_cons_of_mem _ (ih lastEnd c hc)
    · rw [if_neg hlt] at hc
      rcases List.mem_cons.mp hc with rfl | hc'
      · exact List.mem_cons_self ..
      · exact List.mem_cons_of_mem _ (ih (c := c) _ hc')

/-- Every pooled candidate (phrase or word) spans at least one character. -/
theorem pool_start_lt {cfg : Config} {text : Str} {level : String} :
    ∀ c ∈ phraseCandidates cfg text level ++ wordCandidates cfg text level,
      c.start < c.end_ := by
  intro c hc
  rcases List.mem_append.mp hc with h | h
  · obtain ⟨ph, hph, a, ha, rfl, _⟩ := phraseCandidates_mem h
    have := phrasesOf_len hph
    simp only [mkPhraseCand]
    omega
  · obtain ⟨so, hso, tim, htim, _, hstart, hend, _⟩ := wordCandidates_mem h
    have htok := tokensOf_spec (mem_of_mem_enum htim)
    have : 1 ≤ tim.2.2.length := List.length_pos.mpr htok.1
    omega

/-- C3: for every text and every level, the candidate list returned by
`detect_candidates` is pairwise disjoint and ordered by position: any two
candidates at output positions i < j satisfy end_i ≤ start_j. -/
theorem C3_disjoint_ordered :
    ∀ (cfg : Config) (text : Str) (level : String),
      (detect_candidates cfg text level).Pairwise (fun a b => a.end_ ≤ b.start) := by
  intro cfg text level
  unfold detect_candidates
  refine (resolveOverlaps_sound _ (-1) ?_).1
  intro c hc
  exact pool_start_lt c ((List.perm_insertionSort _ _).mem_iff.mp hc)

/-- C5 counterexample: a whitelist entry that is itself a multi-word phrase
does not suppress the phrase pass, which checks only the phrase's individual
words against the whitelist (src/app.py:210-211): with "veri tabanı" both in
the lexicon and in the whitelist, the text "veri tabanı" still yields a
candidate whose matched phrase equals the whitelist entry (even
case-sensitively, hence also case-insensitively). -/
theorem C5_counterexample :
    "veri tabanı".toList ∈ cfgPhraseWl.whitelist ∧
    ∃ c ∈ detect_candidates cfgPhraseWl "veri tabanı".toList "strict",
      c.foreign_norm = "veri tabanı".toList ∧
      strLower c.foreign_norm = strLower "veri tabanı".toList := by
  exact ⟨by decide, by decide⟩

/-- C5 amended: whitelisted tokens never appear among the word candidates —
the token filter tests both exact and case-insensitive (lowercased) equality
against every whitelist entry (src/app.py:245-246) — but the guarantee does
not extend to phrase candidates, for which only the phrase's individual
words are tested, case-sensitively. -/
theorem C5_whitelist_amended :
    ∀ (cfg : Config) (text : Str) (level : String) (w : Str) (c : Candidate),
      w ∈ cfg.whitelist → c ∈ detect_candidates cfg text level →
      c ∈ wordCandidates cfg text level →
      strLower c.original ≠ strLower w := by
  intro cfg text level w c hw _ hword heq
  obtain ⟨so, hso, tim, htim, horig, _, _, hwl⟩ := wordCandidates_mem hword
  have hmemmap : normalize_token tim.2.2 ∈ cfg.whitelist.map normalize_token := by
    refine List.mem_map.mpr ⟨w, hw, ?_⟩
    unfold normalize_token
    rw [← heq, horig]
  have hcontains : (cfg.whitelist.map normalize_token).contains (normalize_token tim.2.2)
      = true := List.elem_iff.mpr hmemmap
  have hfalse := (Bool.or_eq_false_iff.mp hwl).2
  exact Bool.false_ne_true (hfalse.symm.trans hcontains)

/-- C5 witness: with the whitelist entry "veri" and detected word candidate
"optimize", the lowercased forms differ. -/
theorem C5_whitelist_witness :
    "veri".toList ∈ cfgVeriWl.whitelist ∧
    candOptimize ∈ detect_candidates cfgVeriWl "optimize et".toList "strict" ∧
    candOptimize ∈ wordCandidates cfgVeriWl "optimize et".toList "strict" ∧
    strLower candOptimize.original ≠ strLower "veri".toList :=
  ⟨by decide, by decide, by decide,
   C5_whitelist_amended cfgVeriWl "optimize et".toList "strict" "veri".toList candOptimize
     (by decide) (by decide) (by decide)⟩

/-- C2: on "Projenin performansını optimize ettik." with a lexicon holding
"performans" and "optimize" at level balanced, detection returns exactly one
candidate, matching "optimize" (id "w:23:31"); applying chosen "eniyilemek"
for it produces "Projenin performansını eniyilemek ettik." and raises the
stored score of (user, "optimize", "eniyilemek", context) by exactly 2,
whatever the prior store contents. -/
theorem C2_end_to_end :
    ∀ (u c : String) (db : DB),
      (detect_candidates cfgExample textExample "balanced").map Candidate.foreign_norm
        = ["optimize".toList] ∧
      (detect_candidates cfgExample textExample "balanced").map Candidate.id
        = ["w:23:31"] ∧
      (apply cfgExample db u textExample c "balanced"
          [⟨"w:23:31", some "eniyilemek".toList, []⟩]).1
        = "Projenin performansını eniyilemek ettik.".toList ∧
      dictGet (db_get_scores (apply cfgExample db u textExample c "balanced"
            [⟨"w:23:31", some "eniyilemek".toList, []⟩]).2 u "optimize".toList c)
          "eniyilemek".toList
        = some (getScore (db_get_scores db u "optimize".toList c) "eniyilemek".toList + 2) := by
  intro u c db
  have happly : apply cfgExample db u textExample c "balanced"
      [⟨"w:23:31", some "eniyilemek".toList, []⟩]
      = ("Projenin performansını eniyilemek ettik.".toList,
         db_add_score db u "optimize".toList "eniyilemek".toList c 2) := rfl
  refine ⟨by decide, by decide, ?_, ?_⟩
  · rw [happly]
  · rw [happly]
    exact getScore_db_add db u "optimize".toList "eniyilemek".toList c 2

theorem findFromAux_some :
    ∀ (hay needle : Str) (fuel pos j : Nat),
      findFromAux hay needle fuel pos = some j →
      pos ≤ j ∧ j + needle.length ≤ hay.length ∧ needle.isPrefixOf (hay.drop j) = true := by
  intro hay needle fuel
  induction fuel with
  | zero => intro pos j h; simp [findFromAux] at h
  | succ fuel ih =>
    intro pos j h
    simp only [findFromAux] at h
    split at h
    next hle =>
      split at h
      next hpre =>
        obtain rfl := Option.some.inj h
        exact ⟨Nat.le_refl _, hle, hpre⟩
      next hpre =>
        have h2 := ih (pos + 1) j h
        exact ⟨by omega, h2.2.1, h2.2.2⟩
    next hle => simp at h

theorem findFrom_some {hay needle : Str} {pos j : Nat}
    (h : findFrom hay needle pos = some j) :
    pos ≤ j ∧ j + needle.length ≤ hay.length ∧ needle.isPrefixOf (hay.drop j) = true :=
  findFromAux_some hay needle _ pos j h

theorem findFromAux_complete :
    ∀ (hay needle : Str) (fuel pos j : Nat),
      pos ≤ j → j + needle.length ≤ hay.length →
      needle.isPrefixOf (hay.drop j) = true → j - pos < fuel →
      ∃ i, findFromAux hay needle fuel pos = some i ∧ i ≤ j := by
  intro hay needle fuel
  induction fuel with
  | zero => intro pos j _ _ _ h; omega
  | succ fuel ih =>
    intro pos j h1 h2 h3 h4
    simp only [findFromAux]
    have hle : pos + needle.length ≤ hay.length := by omega
    rw [if_pos hle]
    by_cases hpre : needle.isPrefixOf (hay.drop pos) = true
    · rw [if_pos hpre]
      exact ⟨pos, rfl, h1⟩
    · rw [if_neg hpre]
      have hne : pos ≠ j := fun e => hpre (e ▸ h3)
      exact ih (pos + 1) j (by omega) h2 h3 (by omega)

theorem findFrom_complete {hay needle : Str} {pos j : Nat}
    (h1 : pos ≤ j) (h2 : j + needle.length ≤ hay.length)
    (h3 : needle.isPrefixOf (hay.drop j) = true) :
    ∃ i, findFrom hay needle pos = some i ∧ i ≤ j :=
  findFromAux_complete hay needle (hay.length + 1) pos j h1 h2 h3 (by omega)

theorem findAllAux_mem :
    ∀ (hay needle : Str) (fuel pos j : Nat), j ∈ findAllAux hay needle fuel pos →
      j + needle.length ≤ hay.length ∧ needle.isPrefixOf (hay.drop j) = true := by
  intro hay needle fuel
  induction fuel with
  | zero => intro pos j h; simp [findAllAux] at h
  | succ fuel ih =>
    intro pos j h
    simp only [findAllAux] at h
    split at h
    next k hk =>
      rcases List.mem_cons.mp h with rfl | h2
      · have h3 := findFrom_some hk
        exact ⟨h3.2.1, h3.2.2⟩
      · exact ih _ j h2
    next => simp at h

theorem findSplitAux_spec :
    ∀ (l : Str) (prev : Char) (pos i j : Nat),
      findSplitAux prev l pos = some (i, j) →
      pos ≤ i ∧ i + 1 ≤ j ∧ j ≤ pos + l.length := by
  intro l
  induction l with
  | nil => intro prev pos i j h; simp [findSplitAux] at h
  | cons c cs ih =>
    intro prev pos i j h
    simp only [findSplitAux] at h
    split at h
    next hcond =>
      simp only [Option.some.injEq, Prod.mk.injEq] at h
      obtain ⟨rfl, rfl⟩ := h
      have hw : (cs.takeWhile isSpacePy).length ≤ cs.length :=
        (List.takeWhile_prefix _).length_le
      refine ⟨Nat.le_refl _, by omega, ?_⟩
      simp only [List.length_cons]
      omega
    next hcond =>
      have h2 := ih c (pos + 1) i j h
      refine ⟨by omega, h2.2.1, ?_⟩
      simp only [List.length_cons]
      omega

theorem findSplit_spec {u : Str} {i j : Nat} (h : findSplit u = some (i, j)) :
    1 ≤ i ∧ i + 1 ≤ j ∧ j ≤ u.length := by
  cases u with
  | nil => simp [findSplit] at h
  | cons c cs =>
    have h2 := findSplitAux_spec cs c 1 i j h
    refine ⟨h2.1, h2.2.1, ?_⟩
    simp only [List.length_cons]
    omega

theorem take_len_take (u : Str) (i : Nat) : u.take ((u.take i).length) = u.take i := by
  rw [List.length_take]
  rcases Nat.le_total i u.length with h | h
  · rw [Nat.min_eq_left h]
  · rw [Nat.min_eq_right h, List.take_of_length_le h, List.take_of_length_le (Nat.le_refl _)]

theorem PiecesAt_mono :
    ∀ {t : Str} {ps : List Str} {m m' : Nat}, m' ≤ m → PiecesAt t m ps → PiecesAt t m' ps := by
  intro t ps
  induction ps with
  | nil => intro m m' _ _; simp [PiecesAt]
  | cons p ps _ =>
    intro m m' hle h
    simp only [PiecesAt] at h ⊢
    obtain ⟨q, hq1, hq2, hq3, hq4⟩ := h
    exact ⟨q, by omega, hq2, hq3, hq4⟩

theorem slice_trans {t u : Str} {o q n : Nat}
    (_h1 : o + u.length ≤ t.length) (h2 : (t.drop o).take u.length = u)
    (h3 : q + n ≤ u.length) :
    (t.drop (o + q)).take n = (u.drop q).take n := by
  have hto : t.drop o = u ++ (t.drop o).drop u.length := by
    conv_lhs => rw [← List.take_append_drop u.length (t.drop o)]
    rw [h2]
  rw [← List.drop_drop]
  rw [hto]
  rw [List.drop_append_of_le_length (by omega)]
  rw [List.take_append_of_le_length (by rw [List.length_drop]; omega)]

theorem PiecesAt_translate :
    ∀ {ps : List Str} {u t : Str} {o m : Nat},
      o + u.length ≤ t.length → (t.drop o).take u.length = u →
      PiecesAt u m ps → PiecesAt t (o + m) ps := by
  intro ps
  induction ps with
  | nil => intro u t o m _ _ _; simp [PiecesAt]
  | cons p ps ih =>
    intro u t o m h1 h2 h
    simp only [PiecesAt] at h ⊢
    obtain ⟨q, hq1, hq2, hq3, hq4⟩ := h
    refine ⟨o + q, by omega, by omega, ?_, ?_⟩
    · have := slice_trans h1 h2 hq2
      rw [this, hq3]
    · have h4 := ih h1 h2 hq4
      rw [show o + (q + p.length + 1) = o + q + p.length + 1 by omega] at h4
      exact h4

theorem sentSplitAux_pieces :
    ∀ (fuel : Nat) (u : Str), PiecesAt u 0 (sentSplitAux fuel u) := by
  intro fuel
  induction fuel with
  | zero =>
    intro u
    simp only [sentSplitAux, PiecesAt]
    exact ⟨0, Nat.le_refl _, by simp, by simp [List.take_length], trivial⟩
  | succ fuel ih =>
    intro u
    simp only [sentSplitAux]
    split
    next st heq =>
      obtain ⟨i, j⟩ := st
      have hspec := findSplit_spec heq
      simp only [PiecesAt]
      refine ⟨0, Nat.le_refl _, ?_, ?_, ?_⟩
      · simp only [Nat.zero_add, List.length_take]
        omega
      · simp only [List.drop_zero]
        exact take_len_take u i
      · have hIH := ih (u.drop j)
        have htr := PiecesAt_translate (o := j) (m := 0)
          (by rw [List.length_drop]; omega) (List.take_length _) hIH
        refine PiecesAt_mono ?_ htr
        simp only [List.length_take]
        omega
    next =>
      simp only [PiecesAt]
      exact ⟨0, Nat.le_refl _, by simp, by simp [List.take_length], trivial⟩

theorem stripPy_occurs (t : Str) :
    ∃ o, o + (stripPy t).length ≤ t.length ∧ (t.drop o).take (stripPy t).length = stripPy t := by
  have hsplit : t.takeWhile isSpacePy ++ t.dropWhile isSpacePy = t :=
    List.takeWhile_append_dropWhile ..
  have hstrip : stripPy t ++ ((t.dropWhile isSpacePy).reverse.takeWhile isSpacePy).reverse
      = t.dropWhile isSpacePy := by
    unfold stripPy
    rw [← List.reverse_append, List.takeWhile_append_dropWhile, List.reverse_reverse]
  have hdrop : t.drop (t.takeWhile isSpacePy).length = t.dropWhile isSpacePy :=
    calc t.drop (t.takeWhile isSpacePy).length
        = (t.takeWhile isSpacePy ++ t.dropWhile isSpacePy).drop
            (t.takeWhile isSpacePy).length := by rw [hsplit]
      _ = t.dropWhile isSpacePy := List.drop_left ..
  refine ⟨(t.takeWhile isSpacePy).length, ?_, ?_⟩
  · have hlen1 : (t.takeWhile isSpacePy).length + (t.dropWhile isSpacePy).length
        = t.length := by
      rw [← List.length_append, hsplit]
    have hlen2 : (stripPy t).length ≤ (t.dropWhile isSpacePy).length := by
      rw [← hstrip, List.length_append]
      omega
    omega
  · rw [hdrop, ← hstrip]
    exact List.take_left ..

theorem sentences_pieces (text : Str) : PiecesAt text 0 (sentencesOf text) := by
  unfold sentencesOf
  split
  · simp [PiecesAt]
  · obtain ⟨o, ho1, ho2⟩ := stripPy_occurs text
    have h1 := sentSplitAux_pieces (stripPy text).length (stripPy text)
    have h2 := PiecesAt_translate ho1 ho2 h1
    exact PiecesAt_mono (Nat.zero_le _) h2

theorem computeOffsets_spec :
    ∀ (ps : List Str) (text : Str) (pos : Nat),
      PiecesAt text pos ps →
      ∀ pr ∈ ps.zip (computeOffsets text pos ps),
        pr.2 + pr.1.length ≤ text.length ∧ (text.drop pr.2).take pr.1.length = pr.1 := by
  intro ps
  induction ps with
  | nil => intro text pos _ pr hpr; simp [computeOffsets] at hpr
  | cons p ps ih =>
    intro text pos hP pr hpr
    simp only [PiecesAt] at hP
    obtain ⟨q, hq1, hq2, hq3, hq4⟩ := hP
    have hpre : p.isPrefixOf (text.drop q) = true := by
      rw [List.isPrefixOf_iff_prefix, List.prefix_iff_eq_take]
      exact hq3.symm
    obtain ⟨i, hi, hile⟩ := findFrom_complete hq1 hq2 hpre
    have hispec := findFrom_some hi
    have hisl : (text.drop i).take p.length = p := by
      have := List.prefix_iff_eq_take.mp (List.isPrefixOf_iff_prefix.mp hispec.2.2)
      exact this.symm
    simp only [computeOffsets, hi, Option.getD_some, List.zip_cons_cons] at hpr
    rcases List.mem_cons.mp hpr with rfl | hpr2
    · exact ⟨hispec.2.1, hisl⟩
    · exact ih text (i + p.length) (PiecesAt_mono (by omega) hq4) pr hpr2

theorem detect_mem_pool {cfg : Config} {text : Str} {level : String} {c : Candidate}
    (h : c ∈ detect_candidates cfg text level) :
    c ∈ phraseCandidates cfg text level ++ wordCandidates cfg text level := by
  unfold detect_candidates at h
  exact (List.perm_insertionSort _ _).mem_iff.mp (resolveOverlaps_subset _ _ _ h)

/-- C4 counterexample: Python lowering expands 'İ' (U+0130) to two
characters, so phrase-pass offsets computed on the lowercased text can point
past the end of the original: with the phrase "ab cd" in the lexicon and the
7-character text "İ ab cd", the detected candidate ends at offset 8. -/
theorem C4_counterexample :
    textDotted.length = 7 ∧
    ∃ c ∈ detect_candidates cfgDotted textDotted "strict",
      ¬ c.end_ ≤ textDotted.length := by
  exact ⟨by decide, by decide⟩

/-- C4 amended: provided lowering the text preserves its length (that is, the
text contains no 'İ'), every candidate satisfies
0 ≤ start < end ≤ len(text) and text[start:end] equals the candidate's
original field; without the proviso the bound can fail for phrase
candidates, whose offsets refer to the lowercased text. -/
theorem C4_bounds_amended :
    ∀ (cfg : Config) (text : Str) (level : String),
      (strLower text).length = text.length →
      ∀ c ∈ detect_candidates cfg text level,
        c.start < c.end_ ∧ c.end_ ≤ text.length ∧
          slicePy text c.start c.end_ = c.original := by
  intro cfg text level hlen c hc
  have hpool := detect_mem_pool hc
  refine ⟨pool_start_lt c hpool, ?_⟩
  rcases List.mem_append.mp hpool with h | h
  · obtain ⟨ph, hph, a, ha, rfl, _⟩ := phraseCandidates_mem h
    have hbound := (findAllAux_mem _ _ _ _ _ ha).1
    constructor
    · simp only [mkPhraseCand]
      omega
    · simp [mkPhraseCand, slicePy]
  · obtain ⟨so, hso, tim, htim, horig, hstart, hend, _⟩ := wordCandidates_mem h
    have hsent := computeOffsets_spec (sentencesOf text) text 0 (sentences_pieces text)
      so hso
    have htok := tokensOf_spec (mem_of_mem_enum htim)
    constructor
    · have h1 : so.2 + so.1.length ≤ text.length := hsent.1
      have h2 : tim.2.1 + tim.2.2.length ≤ so.1.length := htok.2.1
      omega
    · rw [hstart, hend, horig]
      unfold slicePy
      rw [show so.2 + tim.2.1 + tim.2.2.length - (so.2 + tim.2.1) = tim.2.2.length by omega]
      rw [slice_trans hsent.1 hsent.2 htok.2.1]
      exact htok.2.2

/-- C4 witness: the amended bounds at the end-to-end example, whose text
lowers without a length change. -/
theorem C4_bounds_witness :
    (strLower textExample).length = textExample.length ∧
    candOptimizeEx ∈ detect_candidates cfgExample textExample "balanced" ∧
    (candOptimizeEx.start < candOptimizeEx.end_ ∧
      candOptimizeEx.end_ ≤ textExample.length ∧
      slicePy textExample candOptimizeEx.start candOptimizeEx.end_
        = candOptimizeEx.original) :=
  ⟨by decide, by decide,
   C4_bounds_amended cfgExample textExample "balanced" (by decide) candOptimizeEx (by decide)⟩

/-- C1: the spec claims `split_root_suffix` strips inflectional endings, e.g.
that 'performansı' splits as 'performans' + 'ı', returning a pair whose
suffix is the nonempty concatenation of the stripped morphemes.  The greedy
root group `[a-zçğıöşü]+` of `TR_SUFFIX_RE` consumes every letter of the
token before the suffix star is tried, and the star happily matches the
empty remainder, so the code never strips anything: at the claimed inputs
the suffix comes back empty and the root is the whole token, contradicting
the code's own stated purpose (src/app.py:57-58). -/
theorem C1_suffix_never_stripped :
    split_root_suffix "performansı".toList = ("performansı".toList, []) ∧
    split_root_suffix "optimizasyonun".toList = ("optimizasyonun".toList, []) ∧
    split_root_suffix "konfigürasyonu".toList = ("konfigürasyonu".toList, []) := by
  refine ⟨by decide, by decide, by decide⟩

/-- C7 counterexample: the claim adds a length-at-least-2 condition to the
all-uppercase branch, but `preserve_casing` (src/app.py:40-41) checks only
`original.isupper()`: a one-letter uppercase original uppercases the whole
suggestion, where the claim requires only the first letter. -/
theorem C7_counterexample :
    preserve_casing "A".toList "örnek".toList = "ÖRNEK".toList ∧
    preserve_casing_claimed "A".toList "örnek".toList = "Örnek".toList ∧
    preserve_casing "A".toList "örnek".toList ≠
      preserve_casing_claimed "A".toList "örnek".toList := by
  refine ⟨by decide, by decide, by decide⟩

/-- C7 amended: `preserve_casing` uppercases the whole suggestion whenever
the original satisfies Python `isupper` (no length condition); otherwise it
capitalizes only the first letter when the original's first character is
uppercase, and otherwise returns the suggestion unchanged; the three
concrete examples of the claim all hold. -/
theorem C7_casing_amended :
    (∀ original suggestion : Str, isupperPy original = true →
      preserve_casing original suggestion = strUpper suggestion) ∧
    (∀ original suggestion : Str, isupperPy original = false →
      isupperPy (original.take 1) = true →
      preserve_casing original suggestion = capFirstPy suggestion) ∧
    (∀ original suggestion : Str, isupperPy original = false →
      isupperPy (original.take 1) = false →
      preserve_casing original suggestion = suggestion) ∧
    preserve_casing "API".toList "arayüz".toList = "ARAYÜZ".toList ∧
    preserve_casing "Model".toList "örnek".toList = "Örnek".toList ∧
    preserve_casing "model".toList "örnek".toList = "örnek".toList := by
  refine ⟨?_, ?_, ?_, by decide, by decide, by decide⟩
  · intro o s h; simp [preserve_casing, h]
  · intro o s h h1; simp [preserve_casing, h, h1]
  · intro o s h h1; simp [preserve_casing, h, h1]

/-- C7 witness: the amended branches applied at concrete inputs. -/
theorem C7_casing_witness :
    isupperPy "API".toList = true ∧
    preserve_casing "API".toList "arayüz".toList = strUpper "arayüz".toList ∧
    isupperPy "Model".toList = false ∧ isupperPy ("Model".toList.take 1) = true ∧
    preserve_casing "Model".toList "örnek".toList = capFirstPy "örnek".toList :=
  ⟨by decide, C7_casing_amended.1 "API".toList "arayüz".toList (by decide),
   by decide, by decide,
   C7_casing_amended.2.1 "Model".toList "örnek".toList (by decide) (by decide)⟩

/-- C6 counterexample: "model" is a lexicon member and pure ASCII, the light
predicate admits it (ASCII, length 5 ≥ 4), but balanced bars it as a common
loanword, so the light candidate set is not contained in the balanced one:
the claimed chain strict ⊇ balanced ⊇ light fails at its second link. -/
theorem C6_counterexample :
    (∃ c ∈ detect_candidates cfgModel "bu model var".toList "light",
      c.foreign_norm = "model".toList) ∧
    detect_candidates cfgModel "bu model var".toList "balanced" = [] ∧
    "model".toList ∈ cfgModel.foreign_terms ∧
    isAsciiStr "model".toList = true := by
  refine ⟨?_, by decide, by decide, by decide⟩
  decide

/-- C6 amended: the level policy is monotone pointwise from balanced to
strict (everything balanced allows, strict allows), and from light to
balanced only for terms outside the common-loanword set; light is not
below balanced in general, because light admits any ASCII term of length
at least 4 even when the balanced level excludes it. -/
theorem C6_monotonicity_amended :
    ∀ (cfg : Config) (term : Str),
      (level_allows cfg term "balanced" = true → level_allows cfg term "strict" = true) ∧
      (term ∉ COMMON_LOANWORDS → level_allows cfg term "light" = true →
        level_allows cfg term "balanced" = true) := by
  intro cfg term
  constructor
  · intro _; simp [level_allows]
  · intro hmem _
    simp [level_allows, List.elem_iff, hmem]

/-- C6 witness: the amended monotonicity applied at the term "optimize". -/
theorem C6_monotonicity_witness :
    level_allows cfgModel "optimize".toList "strict" = true ∧
    level_allows cfgModel "optimize".toList "balanced" = true :=
  ⟨(C6_monotonicity_amended cfgModel "optimize".toList).1 (by decide),
   (C6_monotonicity_amended cfgModel "optimize".toList).2 (by decide) (by decide)⟩

/-- C10: `level_allows` reaches the light predicate for every level string
other than "strict" and "balanced", so detection treats every unrecognized
level exactly like "light"; consequently the whole candidate computation
agrees with the "light" one. -/
theorem C10_unknown_level_light :
    ∀ (cfg : Config) (text : Str) (level : String),
      level ≠ "strict" → level ≠ "balanced" →
      (∀ term : Str, level_allows cfg term level = level_allows cfg term "light") ∧
      detect_candidates cfg text level = detect_candidates cfg text "light" := by
  intro cfg text level h1 h2
  have hterm : ∀ term : Str, level_allows cfg term level = level_allows cfg term "light" := by
    intro term
    simp [level_allows, h1, h2]
  refine ⟨hterm, ?_⟩
  unfold detect_candidates phraseCandidates wordCandidates
  simp only [hterm]

/-- C10 witness: the level "aggressive" behaves as "light". -/
theorem C10_unknown_level_witness :
    ("aggressive" ≠ "strict" ∧ "aggressive" ≠ "balanced") ∧
    detect_candidates cfgModel "bu model var".toList "aggressive"
      = detect_candidates cfgModel "bu model var".toList "light" :=
  ⟨⟨by decide, by decide⟩,
   (C10_unknown_level_light cfgModel "bu model var".toList "aggressive"
      (by decide) (by decide)).2⟩

end TurkApp
